import Mathlib

/-!
Verification of the MASS similarity-search library (super_mass):
the chunk partitioner `task_index`, the distance-profile computation `mass`,
the per-chunk minimum search `min_subsequence_distance`, and the batched
top-k search `mass_batch`, shallowly embedded from src/lib.rs.  The `math`
and `stats` submodules are declared in src/lib.rs but their sources are not
available; their operations are modelled from the specification and marked
as such in their doc comments.  Rust `assert!`/`debug_assert!` panics and
arithmetic-overflow panics are embedded as `Option` failures (`none`).
-/

namespace Mass

/-! ### Chunk partitioner: `task_index` from src/lib.rs -/

/-- Fuel-driven test for `usize::is_power_of_two` (Rust standard library):
`isPow2Go fuel n` decides whether `n` is a power of two, halving `n` at each
step; `fuel ≥ n` suffices. -/
def isPow2Go : Nat → Nat → Bool
  | _, 0 => false
  | 0, _ + 1 => false
  | _ + 1, 1 => true
  | fuel + 1, n + 2 => (n + 2) % 2 == 0 && isPow2Go fuel ((n + 2) / 2)

/-- Embedding of `usize::is_power_of_two`. -/
def isPow2 (n : Nat) : Bool := isPow2Go n n

/-- Fuel-driven computation of `usize::next_power_of_two` (Rust standard
library): doubles `acc` until it reaches `n`. -/
def nextPow2Go (n : Nat) : Nat → Nat → Nat
  | 0, acc => acc
  | fuel + 1, acc => if n ≤ acc then acc else nextPow2Go n fuel (2 * acc)

/-- Embedding of `usize::next_power_of_two`: the least power of two that is
`≥ n` (and `1` for `n = 0`). -/
def nextPow2 (n : Nat) : Nat := nextPow2Go n n 1

/-- The batch size actually used by `task_index`: rounded up to the next
power of two when it is not already one (src/lib.rs lines 222-224). -/
def roundBatch (b : Nat) : Nat := if isPow2 b then b else nextPow2 b

/-- Embedding of Rust's `(0..stop).step_by(stepSize)`: the multiples of
`stepSize` below `stop`, in increasing order (`stepSize > 0`). -/
def stepRange (stop stepSize : Nat) : List Nat :=
  (List.range ((stop + stepSize - 1) / stepSize)).map (· * stepSize)

/-- Embedding of `task_index(ts, query, batch_size)` from src/lib.rs lines
212-241.  The `assert!`/`debug_assert!` guards and the debug-mode overflow
of `query - 1` when `query = 0` are rendered as `none`. -/
def task_index (ts query batch_size : Nat) : Option (List (Nat × Nat)) :=
  if batch_size ≤ query then none
  else
    let b := roundBatch batch_size
    if ts < b then none
    else if b < query then none
    else if query = 0 then none
    else
      some ((stepRange (ts - query) (b - (query - 1))).map
        (fun i => (i, min (ts - 1) (i + b - 1))))

/-! ### Basic facts about `isPow2` and `nextPow2` -/

theorem isPow2Go_iff : ∀ fuel n, n ≤ fuel → (isPow2Go fuel n = true ↔ ∃ k, n = 2 ^ k) := by
  intro fuel
  induction fuel with
  | zero =>
    intro n hn
    interval_cases n
    simp only [isPow2Go]
    constructor
    · intro h
      exact absurd h (by simp)
    · rintro ⟨k, hk⟩
      exact absurd hk.symm (by positivity)
  | succ fuel ih =>
    intro n hn
    match n with
    | 0 =>
      simp only [isPow2Go]
      constructor
      · intro h
        exact absurd h (by simp)
      · rintro ⟨k, hk⟩
        exact absurd hk.symm (by positivity)
    | 1 =>
      simp only [isPow2Go]
      exact ⟨fun _ => ⟨0, rfl⟩, fun _ => trivial⟩
    | m + 2 =>
      simp only [isPow2Go, Bool.and_eq_true, beq_iff_eq]
      have hle : (m + 2) / 2 ≤ fuel := by omega
      rw [ih _ hle]
      constructor
      · rintro ⟨hmod, k, hk⟩
        refine ⟨k + 1, ?_⟩
        omega
      · rintro ⟨k, hk⟩
        match k with
        | 0 => omega
        | k + 1 =>
          constructor
          · omega
          · exact ⟨k, by omega⟩

theorem isPow2_iff (n : Nat) : isPow2 n = true ↔ ∃ k, n = 2 ^ k :=
  isPow2Go_iff n n le_rfl

theorem nextPow2Go_pow2 : ∀ (n : Nat) (fuel acc : Nat), (∃ k, acc = 2 ^ k) →
    ∃ k, nextPow2Go n fuel acc = 2 ^ k := by
  intro n fuel
  induction fuel with
  | zero => intro acc h; exact h
  | succ fuel ih =>
    intro acc h
    simp only [nextPow2Go]
    split
    · exact h
    · obtain ⟨k, hk⟩ := h
      exact ih (2 * acc) ⟨k + 1, by rw [hk]; ring⟩

theorem nextPow2Go_le : ∀ (n : Nat) (fuel acc : Nat), acc ≤ nextPow2Go n fuel acc := by
  intro n fuel
  induction fuel with
  | zero => intro acc; exact le_rfl
  | succ fuel ih =>
    intro acc
    simp only [nextPow2Go]
    split
    · exact le_rfl
    · exact le_trans (by omega) (ih (2 * acc))

theorem nextPow2Go_ge : ∀ (n : Nat) (fuel acc : Nat), 1 ≤ acc →
    n ≤ acc * 2 ^ fuel → n ≤ nextPow2Go n fuel acc := by
  intro n fuel
  induction fuel with
  | zero =>
    intro acc _ h
    simpa using h
  | succ fuel ih =>
    intro acc hacc h
    simp only [nextPow2Go]
    split
    · assumption
    · exact ih (2 * acc) (by omega) (by rw [pow_succ] at h; nlinarith)

theorem nextPow2Go_min : ∀ (n : Nat) (fuel acc k : Nat), (∃ j, acc = 2 ^ j) →
    acc ≤ 2 ^ k → n ≤ 2 ^ k → nextPow2Go n fuel acc ≤ 2 ^ k := by
  intro n fuel
  induction fuel with
  | zero => intro acc k _ h _; exact h
  | succ fuel ih =>
    intro acc k hpow hacc hn
    simp only [nextPow2Go]
    split
    · exact hacc
    · rename_i hlt
      obtain ⟨j, hj⟩ := hpow
      have hjk : j < k := by
        by_contra hge
        have : (2 : Nat) ^ k ≤ 2 ^ j := Nat.pow_le_pow_right (by norm_num) (by omega)
        omega
      refine ih (2 * acc) k ⟨j + 1, by rw [hj]; ring⟩ ?_ hn
      calc 2 * acc = 2 ^ (j + 1) := by rw [hj]; ring
      _ ≤ 2 ^ k := Nat.pow_le_pow_right (by norm_num) (by omega)

theorem nextPow2_ge (n : Nat) : n ≤ nextPow2 n := by
  refine nextPow2Go_ge n n 1 le_rfl ?_
  have := Nat.lt_two_pow n
  omega

theorem nextPow2_pow2 (n : Nat) : ∃ k, nextPow2 n = 2 ^ k :=
  nextPow2Go_pow2 n n 1 ⟨0, rfl⟩

theorem nextPow2_min (n : Nat) {c : Nat} (hc : ∃ k, c = 2 ^ k) (hnc : n ≤ c) :
    nextPow2 n ≤ c := by
  obtain ⟨k, hk⟩ := hc
  subst hk
  exact nextPow2Go_min n n 1 k ⟨0, rfl⟩ (Nat.one_le_two_pow) hnc

theorem roundBatch_ge (b : Nat) : b ≤ roundBatch b := by
  unfold roundBatch
  split
  · exact le_rfl
  · exact nextPow2_ge b

theorem roundBatch_pow2 (b : Nat) : isPow2 (roundBatch b) = true := by
  unfold roundBatch
  split
  · assumption
  · rw [isPow2_iff]
    exact nextPow2_pow2 b

theorem roundBatch_min (b : Nat) {c : Nat} (hc : isPow2 c = true) (hbc : b ≤ c) :
    roundBatch b ≤ c := by
  unfold roundBatch
  split
  · exact hbc
  · exact nextPow2_min b ((isPow2_iff c).mp hc) hbc

/-! ### Membership in `stepRange` -/

theorem stepRange_mem (stop stepSize x : Nat) (hs : 1 ≤ stepSize) :
    x ∈ stepRange stop stepSize ↔ ∃ k, x = k * stepSize ∧ x < stop := by
  unfold stepRange
  simp only [List.mem_map, List.mem_range]
  have e1 : ∀ k : Nat, (k + 1) * stepSize = k * stepSize + stepSize := fun k => by ring
  constructor
  · rintro ⟨k, hk, rfl⟩
    refine ⟨k, rfl, ?_⟩
    by_contra hge
    push_neg at hge
    have h1 : (stop + stepSize - 1) / stepSize < k + 1 := by
      rw [Nat.div_lt_iff_lt_mul (by omega)]
      have := e1 k
      omega
    omega
  · rintro ⟨k, rfl, hlt⟩
    refine ⟨k, ?_, rfl⟩
    have h2 : k + 1 ≤ (stop + stepSize - 1) / stepSize := by
      rw [Nat.le_div_iff_mul_le (by omega)]
      have := e1 k
      omega
    omega

/-! ### Characterization of `task_index` under its preconditions -/

theorem task_index_eq (n m b : Nat) (hm : 1 ≤ m) (hb : m < b)
    (hn : roundBatch b ≤ n) :
    task_index n m b =
      some ((stepRange (n - m) (roundBatch b - (m - 1))).map
        (fun i => (i, min (n - 1) (i + roundBatch b - 1)))) := by
  have hge : b ≤ roundBatch b := roundBatch_ge b
  unfold task_index
  rw [if_neg (by omega), if_neg (by omega), if_neg (by omega), if_neg (by omega)]

theorem task_index_mem (n m b : Nat) (hm : 1 ≤ m) (hb : m < b)
    (hn : roundBatch b ≤ n) (L : List (Nat × Nat))
    (hL : task_index n m b = some L) (l h : Nat) :
    (l, h) ∈ L ↔
      ∃ k, l = k * (roundBatch b - (m - 1)) ∧ l < n - m ∧
        h = min (n - 1) (l + roundBatch b - 1) := by
  have hge : b ≤ roundBatch b := roundBatch_ge b
  rw [task_index_eq n m b hm hb hn] at hL
  obtain rfl : L = _ := (Option.some_inj.mp hL).symm
  simp only [List.mem_map]
  constructor
  · rintro ⟨i, hi, heq⟩
    obtain ⟨rfl, rfl⟩ : i = l ∧ min (n - 1) (i + roundBatch b - 1) = h := by
      exact ⟨congrArg Prod.fst heq, congrArg Prod.snd heq⟩
    obtain ⟨k, rfl, hlt⟩ := (stepRange_mem _ _ _ (by omega)).mp hi
    exact ⟨k, rfl, hlt, rfl⟩
  · rintro ⟨k, rfl, hlt, rfl⟩
    exact ⟨k * (roundBatch b - (m - 1)),
      (stepRange_mem _ _ _ (by omega)).mpr ⟨k, rfl, hlt⟩, rfl⟩

theorem task_index_pair_bounds (n m b : Nat) (hm : 1 ≤ m) (hb : m < b)
    (hn : roundBatch b ≤ n) (L : List (Nat × Nat))
    (hL : task_index n m b = some L) :
    ∀ p ∈ L, p.1 ≤ p.2 ∧ p.2 ≤ n - 1 ∧ m ≤ p.2 - p.1 + 1 := by
  have hge : b ≤ roundBatch b := roundBatch_ge b
  rintro ⟨l, h⟩ hp
  obtain ⟨k, rfl, hlt, rfl⟩ := (task_index_mem n m b hm hb hn L hL l h).mp hp
  simp only []
  omega

/-- Claim C1 (code_bug evidence): at `n = 5`, `m = 2`, `b = 4` the
partitioner's preconditions hold (`b > m` and the rounded batch size is
`≤ n`), the produced chunks are exactly `[(0, 3)]`, and the final valid
alignment offset `3 = n - m` is contained in no produced chunk: the claimed
gap-free coverage of `[0, n-m]` fails on the code. -/
theorem claim_C1 :
    2 < 4 ∧ roundBatch 4 ≤ 5 ∧
    task_index 5 2 4 = some [(0, 3)] ∧
    ¬ (∀ i ≤ 5 - 2, ∃ p ∈ [((0 : Nat), (3 : Nat))], p.1 ≤ i ∧ i + 2 - 1 ≤ p.2) := by
  decide

/-- Claim C2: under the preconditions (`m ≥ 1`, `b > m`, rounded batch size
`≤ n`), `task_index n m b` succeeds and yields exactly the pairs
`(low, min (n-1) (low + b' - 1))` for `low` a multiple of
`step = b' - (m-1)` with `low < n - m`, where `b'` is `b` rounded up to the
next power of two iff it is not already one (characterized by: `b'` is a
power of two, `b ≤ b'`, `b'` is `b` itself when `b` is a power of two, and
`b'` is minimal among powers of two `≥ b`); in particular the four
concrete evaluations of the specification hold. -/
theorem claim_C2 :
    (∀ n m b, 1 ≤ m → m < b → roundBatch b ≤ n →
      ∃ L, task_index n m b = some L ∧
        (∀ l h, (l, h) ∈ L ↔
          ∃ k, l = k * (roundBatch b - (m - 1)) ∧ l < n - m ∧
            h = min (n - 1) (l + roundBatch b - 1)) ∧
        isPow2 (roundBatch b) = true ∧ b ≤ roundBatch b ∧
        (isPow2 b = true → roundBatch b = b) ∧
        (∀ c, isPow2 c = true → b ≤ c → roundBatch b ≤ c)) ∧
    task_index 10 4 5 = some [(0, 7), (5, 9)] ∧
    task_index 6 2 4 = some [(0, 3), (3, 5)] ∧
    task_index 8 2 8 = some [(0, 7)] ∧
    task_index 6 3 4 = some [(0, 3), (2, 5)] := by
  refine ⟨?_, by decide, by decide, by decide, by decide⟩
  intro n m b hm hb hn
  refine ⟨_, task_index_eq n m b hm hb hn, ?_, roundBatch_pow2 b,
    roundBatch_ge b, ?_, fun c hc hbc => roundBatch_min b hc hbc⟩
  · intro l h
    exact task_index_mem n m b hm hb hn _ (task_index_eq n m b hm hb hn) l h
  · intro hpow
    unfold roundBatch
    rw [if_pos hpow]

/-- Claim C2 witness: instantiation at `n = 10`, `m = 4`, `b = 5`. -/
theorem claim_C2_witness :
    (1 ≤ 4 ∧ 4 < 5 ∧ roundBatch 5 ≤ 10) ∧
    (∃ L, task_index 10 4 5 = some L ∧
      (∀ l h, (l, h) ∈ L ↔
        ∃ k, l = k * (roundBatch 5 - (4 - 1)) ∧ l < 10 - 4 ∧
          h = min (10 - 1) (l + roundBatch 5 - 1)) ∧
      isPow2 (roundBatch 5) = true ∧ 5 ≤ roundBatch 5 ∧
      (isPow2 5 = true → roundBatch 5 = 5) ∧
      (∀ c, isPow2 c = true → 5 ≤ c → roundBatch 5 ≤ c)) :=
  ⟨by decide, claim_C2.1 10 4 5 (by decide) (by decide) (by decide)⟩

/-- Claim C7: for a query of length `m ≥ 1`, the chunk partitioner fails
exactly when the requested chunk size does not exceed the query length, or
when the chunk size rounded up to the next power of two exceeds the series
length; otherwise the size checks pass and chunks are produced. -/
theorem claim_C7 (n m b : Nat) (hm : 1 ≤ m) :
    task_index n m b = none ↔ b ≤ m ∨ n < roundBatch b := by
  have hge : b ≤ roundBatch b := roundBatch_ge b
  simp only [task_index]
  by_cases h1 : b ≤ m
  · rw [if_pos h1]
    simp only [true_iff]
    exact Or.inl h1
  · rw [if_neg h1]
    by_cases h2 : n < roundBatch b
    · rw [if_pos h2]
      simp only [true_iff]
      exact Or.inr h2
    · rw [if_neg h2, if_neg (by omega : ¬ roundBatch b < m),
        if_neg (by omega : ¬ m = 0)]
      simp only [reduceCtorEq, false_iff]
      omega

/-- Claim C7 witness: a chunk size equal to the query length is rejected. -/
theorem claim_C7_witness :
    1 ≤ 2 ∧ (task_index 10 2 2 = none ↔ 2 ≤ 2 ∨ 10 < roundBatch 2) :=
  ⟨by decide, claim_C7 10 2 2 (by decide)⟩

/-- Claim C10: under the partitioner's preconditions, every produced pair
`(low, high)` is a well-formed chunk: `low ≤ high ≤ n - 1` and
`high - low + 1 ≥ m`, so the inclusive range is in bounds and at least as
long as the query. -/
theorem claim_C10 (n m b : Nat) (L : List (Nat × Nat)) (hm : 1 ≤ m)
    (hb : m < b) (hn : roundBatch b ≤ n) (hL : task_index n m b = some L) :
    ∀ p ∈ L, p.1 ≤ p.2 ∧ p.2 ≤ n - 1 ∧ m ≤ p.2 - p.1 + 1 :=
  task_index_pair_bounds n m b hm hb hn L hL

/-- Claim C10 witness: instantiation at `n = 10`, `m = 4`, `b = 5`,
chunk `(5, 9)`. -/
theorem claim_C10_witness :
    ((5 : Nat), (9 : Nat)).1 ≤ ((5 : Nat), (9 : Nat)).2 ∧
    ((5 : Nat), (9 : Nat)).2 ≤ 10 - 1 ∧
    4 ≤ ((5 : Nat), (9 : Nat)).2 - ((5 : Nat), (9 : Nat)).1 + 1 :=
  claim_C10 10 4 5 [(0, 7), (5, 9)] (by decide) (by decide) (by decide)
    (by decide) (5, 9) (by decide)

/-! ### Distance profile: `mass` from src/lib.rs.  The `stats` and `math`
modules are declared in src/lib.rs (`pub mod math; pub mod stats;`) but
their source files are not available, so their operations are modelled from
the specification (§4.1-§4.3), over `ℝ` as the idealization of `f64`. -/

noncomputable section

/-- Modelled from the spec: `stats::mean` (module source missing) — the
arithmetic mean of all samples. -/
def mean (l : List ℝ) : ℝ := l.sum / l.length

/-- Modelled from the spec: `stats::std` (module source missing) — the
population standard deviation (divide by count, not count − 1). -/
def std (l : List ℝ) : ℝ :=
  Real.sqrt ((l.map (fun x => (x - mean l) ^ 2)).sum / l.length)

/-- The window of `w` consecutive samples of `l` starting at offset `i`. -/
def window (l : List ℝ) (i w : Nat) : List ℝ := (l.drop i).take w

/-- Modelled from the spec: `stats::moving_avg` (module source missing) —
rolling means: `n − w + 1` entries, entry `i` the mean of the window at
offset `i`. -/
def moving_avg (l : List ℝ) (w : Nat) : List ℝ :=
  (List.range (l.length - w + 1)).map (fun i => mean (window l i w))

/-- Modelled from the spec: `stats::moving_std` (module source missing) —
rolling population standard deviations over the same windows. -/
def moving_std (l : List ℝ) (w : Nat) : List ℝ :=
  (List.range (l.length - w + 1)).map (fun i => std (window l i w))

/-- Dot product of two sequences (truncated to the shorter). -/
def dot (a b : List ℝ) : ℝ := (List.zipWith (· * ·) a b).sum

/-- Modelled from the spec: `math::fft_mult` (module source missing) — the
sliding dot products `z[i] = Σ_j ts[i+j]·query[j]` for `i ∈ [0, n−m]`,
which §4.2 defines as the extracted output of the FFT cross-correlation. -/
def fft_mult (ts query : List ℝ) : List ℝ :=
  (List.range (ts.length - query.length + 1)).map
    (fun i => dot (window ts i query.length) query)

/-- Modelled from the spec: `math::dist` (module source missing) — §4.3:
`dist²[i] = 2·m·(1 − (z[i] − m·μ_q·μ_ts[i]) / (m·σ_q·σ_ts[i]))`, clamped at
zero and square-rooted, one entry per offset `i ∈ [0, n−m]`. -/
def dist (muQ sigmaQ : ℝ) (muTs sigmaTs : List ℝ) (n m : Nat) (z : List ℝ) :
    List ℝ :=
  (List.range (n - m + 1)).map (fun i =>
    Real.sqrt (max 0 (2 * (m : ℝ) *
      (1 - (z.getD i 0 - (m : ℝ) * muQ * muTs.getD i 0) /
        ((m : ℝ) * sigmaQ * sigmaTs.getD i 0)))))

/-- The unchecked distance-profile computation of `mass` (src/lib.rs lines
111-141): query statistics, rolling series statistics, sliding dot
products, and the distance reconstruction. -/
def massProfile (ts query : List ℝ) : List ℝ :=
  dist (mean query) (std query) (moving_avg ts query.length)
    (moving_std ts query.length) ts.length query.length (fft_mult ts query)

/-- Embedding of `mass` (src/lib.rs lines 111-141); the
`debug_assert!(n >= m)` is rendered as an `Option` failure. -/
def mass (ts query : List ℝ) : Option (List ℝ) :=
  if query.length ≤ ts.length then some (massProfile ts query) else none

/-- Modelled from the spec: the strict-improvement fold underlying
`math::argmin` (module source missing) — §4.5 step 2: position of the
minimum, ties broken by first occurrence in index order. -/
def argminFrom : List ℝ → Nat → Nat × ℝ → Nat × ℝ
  | [], _, best => best
  | x :: xs, i, best => argminFrom xs (i + 1) (if x < best.2 then (i, x) else best)

/-- Modelled from the spec: `math::argmin` (module source missing). -/
def argmin (l : List ℝ) : Nat :=
  match l with
  | [] => 0
  | x :: xs => (argminFrom xs 1 (0, x)).1

/-- Embedding of `min_subsequence_distance` (src/lib.rs lines 91-107):
compute the distance profile of the chunk, take its argmin, add the chunk's
start index.  The failure of `mass`'s assertion propagates. -/
def min_subsequence_distance (start : Nat) (sub query : List ℝ) :
    Option (Nat × ℝ) :=
  (mass sub query).map (fun d => (argmin d + start, d.getD (argmin d) 0))

end

theorem massProfile_length (ts query : List ℝ) :
    (massProfile ts query).length = ts.length - query.length + 1 := by
  simp [massProfile, Mass.dist]

/-- Claim C4: for `len(ts) ≥ len(query) = m ≥ 1`, `mass` succeeds and
returns exactly `len(ts) − m + 1` distance entries, one per valid
alignment offset. -/
theorem claim_C4 (ts query : List ℝ) (_hm : 1 ≤ query.length)
    (hn : query.length ≤ ts.length) :
    ∃ p, mass ts query = some p ∧ p.length = ts.length - query.length + 1 := by
  refine ⟨massProfile ts query, ?_, massProfile_length ts query⟩
  unfold mass
  rw [if_pos hn]

/-- Claim C4 witness: a length-3 series and length-1 query give 3 entries. -/
theorem claim_C4_witness :
    ∃ p, mass [(0 : ℝ), 1, 2] [(0 : ℝ)] = some p ∧
      p.length = [(0 : ℝ), 1, 2].length - [(0 : ℝ)].length + 1 :=
  claim_C4 [(0 : ℝ), 1, 2] [(0 : ℝ)] (by simp) (by simp)

/-- Claim C8: `mass` fails exactly when the series is shorter than the
query, returning no profile in that case. -/
theorem claim_C8 (ts query : List ℝ) :
    mass ts query = none ↔ ts.length < query.length := by
  unfold mass
  split_ifs with h
  · simp only [reduceCtorEq, false_iff]
    omega
  · simp only [true_iff]
    omega

/-- Claim C8 witness: a length-1 series with a length-2 query fails. -/
theorem claim_C8_witness :
    mass [(0 : ℝ)] [(0 : ℝ), 1] = none ↔
      [(0 : ℝ)].length < [(0 : ℝ), 1].length :=
  claim_C8 [(0 : ℝ)] [(0 : ℝ), 1]

/-! ### The argmin fold finds the first position of the minimum -/

theorem argminFrom_spec : ∀ (xs : List ℝ) (i bi : Nat) (bv : ℝ),
    (argminFrom xs i (bi, bv) = (bi, bv) ∧ ∀ x ∈ xs, bv ≤ x) ∨
    (∃ j, j < xs.length ∧ argminFrom xs i (bi, bv) = (i + j, xs.getD j 0) ∧
      xs.getD j 0 < bv ∧ (∀ x ∈ xs, xs.getD j 0 ≤ x) ∧
      (∀ t < j, xs.getD j 0 < xs.getD t 0)) := by
  intro xs
  induction xs with
  | nil =>
    intro i bi bv
    exact Or.inl ⟨rfl, by simp⟩
  | cons x xs ih =>
    intro i bi bv
    simp only [argminFrom]
    by_cases hx : x < bv
    · rw [if_pos hx]
      rcases ih (i + 1) i x with ⟨heq, hall⟩ | ⟨j, hj, heq, hlt, hmin, hfirst⟩
      · refine Or.inr ⟨0, by simp, by simpa using heq, by simpa using hx, ?_, by simp⟩
        intro y hy
        rcases List.mem_cons.mp hy with rfl | hy
        · simp
        · simpa using hall y hy
      · refine Or.inr ⟨j + 1, by simpa using hj, ?_, ?_, ?_, ?_⟩
        · rw [heq]
          simp only [List.getD_cons_succ]
          congr 1
          omega
        · simp only [List.getD_cons_succ]
          exact lt_trans hlt hx
        · intro y hy
          simp only [List.getD_cons_succ]
          rcases List.mem_cons.mp hy with rfl | hy
          · exact le_of_lt hlt
          · exact hmin y hy
        · intro t ht
          match t with
          | 0 => simpa using hlt
          | t + 1 =>
            simp only [List.getD_cons_succ]
            exact hfirst t (by omega)
    · rw [if_neg hx]
      rcases ih (i + 1) bi bv with ⟨heq, hall⟩ | ⟨j, hj, heq, hlt, hmin, hfirst⟩
      · refine Or.inl ⟨heq, ?_⟩
        intro y hy
        rcases List.mem_cons.mp hy with rfl | hy
        · exact le_of_not_lt hx
        · exact hall y hy
      · refine Or.inr ⟨j + 1, by simpa using hj, ?_, ?_, ?_, ?_⟩
        · rw [heq]
          simp only [List.getD_cons_succ]
          congr 1
          omega
        · simpa only [List.getD_cons_succ] using hlt
        · intro y hy
          simp only [List.getD_cons_succ]
          rcases List.mem_cons.mp hy with rfl | hy
          · exact le_of_lt (lt_of_lt_of_le hlt (le_of_not_lt hx))
          · exact hmin y hy
        · intro t ht
          match t with
          | 0 =>
            simp only [List.getD_cons_succ, List.getD_cons_zero]
            exact lt_of_lt_of_le hlt (le_of_not_lt hx)
          | t + 1 =>
            simp only [List.getD_cons_succ]
            exact hfirst t (by omega)

theorem argmin_spec (l : List ℝ) (hl : l ≠ []) :
    argmin l < l.length ∧
    (∀ t < l.length, l.getD (argmin l) 0 ≤ l.getD t 0) ∧
    (∀ t < argmin l, l.getD (argmin l) 0 < l.getD t 0) := by
  match l with
  | [] => exact absurd rfl hl
  | x :: xs =>
    have hmem : ∀ (t : Nat), t < xs.length → xs.getD t 0 ∈ xs := by
      intro t ht
      rw [List.getD_eq_getElem _ _ ht]
      exact List.getElem_mem ht
    rcases argminFrom_spec xs 1 0 x with ⟨heq, hall⟩ | ⟨j, hj, heq, hlt, hmin, hfirst⟩
    · have ha : argmin (x :: xs) = 0 := by
        simp only [argmin, heq]
      rw [ha]
      refine ⟨by simp, ?_, by omega⟩
      intro t ht
      match t with
      | 0 => exact le_rfl
      | t + 1 =>
        simp only [List.getD_cons_zero, List.getD_cons_succ]
        exact hall _ (hmem t (by simpa using ht))
    · have ha : argmin (x :: xs) = 1 + j := by
        simp only [argmin, heq]
      rw [ha]
      have hga : (x :: xs).getD (1 + j) 0 = xs.getD j 0 := by
        rw [add_comm]
        simp
      rw [hga]
      refine ⟨by simp; omega, ?_, ?_⟩
      · intro t ht
        match t with
        | 0 => exact le_of_lt hlt
        | t + 1 =>
          simp only [List.getD_cons_succ]
          exact hmin _ (hmem t (by simpa using ht))
      · intro t ht
        match t with
        | 0 => exact hlt
        | t + 1 =>
          simp only [List.getD_cons_succ]
          exact hfirst t (by omega)

/-- Claim C5: for a chunk starting at `start` whose slice is at least as
long as the query, the per-chunk search emits
`(local_min_index + start, local_min_distance)` where `local_min_index` is
the position of the minimum of the chunk's distance profile, ties broken by
the first occurrence in index order. -/
theorem claim_C5 (start : Nat) (sub query : List ℝ)
    (hn : query.length ≤ sub.length) :
    ∃ j, min_subsequence_distance start sub query =
        some (j + start, (massProfile sub query).getD j 0) ∧
      j < (massProfile sub query).length ∧
      (∀ t < (massProfile sub query).length,
        (massProfile sub query).getD j 0 ≤ (massProfile sub query).getD t 0) ∧
      (∀ t < j, (massProfile sub query).getD j 0 <
        (massProfile sub query).getD t 0) := by
  have hne : massProfile sub query ≠ [] := by
    have := massProfile_length sub query
    intro hcon
    rw [hcon] at this
    simp at this
  refine ⟨argmin (massProfile sub query), ?_, argmin_spec _ hne⟩
  unfold min_subsequence_distance mass
  rw [if_pos hn]
  rfl

/-- Claim C5 witness: instantiation at `start = 5`, chunk `[0, 1, 2]`,
query `[0, 1]`. -/
theorem claim_C5_witness :
    ∃ j, min_subsequence_distance 5 [(0 : ℝ), 1, 2] [(0 : ℝ), 1] =
        some (j + 5, (massProfile [(0 : ℝ), 1, 2] [(0 : ℝ), 1]).getD j 0) ∧
      j < (massProfile [(0 : ℝ), 1, 2] [(0 : ℝ), 1]).length ∧
      (∀ t < (massProfile [(0 : ℝ), 1, 2] [(0 : ℝ), 1]).length,
        (massProfile [(0 : ℝ), 1, 2] [(0 : ℝ), 1]).getD j 0 ≤
          (massProfile [(0 : ℝ), 1, 2] [(0 : ℝ), 1]).getD t 0) ∧
      (∀ t < j, (massProfile [(0 : ℝ), 1, 2] [(0 : ℝ), 1]).getD j 0 <
        (massProfile [(0 : ℝ), 1, 2] [(0 : ℝ), 1]).getD t 0) :=
  claim_C5 5 [(0 : ℝ), 1, 2] [(0 : ℝ), 1] (by simp)

/-! ### Batched top-k search: `mass_batch` from src/lib.rs lines 179-207.

The per-chunk computations are fanned out over a thread pool
(`par_bridge`), so the collected list of per-chunk results is an arbitrary
permutation of the task-order results; `select_nth_unstable_by` (Rust
standard library, external to this repository) then reorders them so that
the element at position `k-1` is in its sorted position, everything before
it is `≤` it and everything after it is `≥` it, the exact permutation
being unspecified.  `mass_batch` is therefore embedded as a relation
between its inputs and its possible results. -/

/-- Option-valued map over a list: `none` as soon as one element fails
(a panic inside one parallel chunk aborts the whole call). -/
def optMap {α β : Type _} (f : α → Option β) : List α → Option (List β)
  | [] => some []
  | x :: xs =>
    match f x, optMap f xs with
    | some y, some ys => some (y :: ys)
    | _, _ => none

theorem optMap_length {α β : Type _} (f : α → Option β) :
    ∀ (l : List α) (r : List β), optMap f l = some r → r.length = l.length := by
  intro l
  induction l with
  | nil =>
    intro r hr
    simp only [optMap, Option.some_inj] at hr
    rw [← hr]
    rfl
  | cons x xs ih =>
    intro r hr
    simp only [optMap] at hr
    match hfx : f x, hrest : optMap f xs with
    | some y, some ys =>
      rw [hfx, hrest] at hr
      simp only [Option.some_inj] at hr
      rw [← hr]
      simp [ih ys hrest]
    | some y, none =>
      rw [hfx, hrest] at hr
      simp at hr
    | none, _ =>
      rw [hfx] at hr
      simp at hr

theorem optMap_some {α β : Type _} (f : α → Option β) :
    ∀ (l : List α), (∀ x ∈ l, ∃ y, f x = some y) → ∃ r, optMap f l = some r := by
  intro l
  induction l with
  | nil => intro _; exact ⟨[], rfl⟩
  | cons x xs ih =>
    intro hall
    obtain ⟨y, hy⟩ := hall x (by simp)
    obtain ⟨r, hr⟩ := ih (fun z hz => hall z (by simp [hz]))
    refine ⟨y :: r, ?_⟩
    simp only [optMap, hy, hr]

/-- The slice `ts[l..=h]` taken by `mass_batch` (src/lib.rs line 193). -/
def sliceIncl (ts : List ℝ) (l h : Nat) : List ℝ := (ts.drop l).take (h - l + 1)

/-- The task-order list of per-chunk results of `mass_batch`
(src/lib.rs lines 190-194): one `MatchResult` per chunk, `none` when the
partitioner or any chunk computation fails. -/
noncomputable def ChunkResults (ts query : List ℝ) (batch_size : Nat) :
    Option (List (Nat × ℝ)) :=
  (task_index ts.length query.length batch_size).bind (fun tasks =>
    optMap (fun lh => min_subsequence_distance lh.1 (sliceIncl ts lh.1 lh.2) query)
      tasks)

/-- The documented reordering contract of Rust's
`select_nth_unstable_by(k-1, ..)` (standard library, external to this
repository): the element at position `k-1` is in its sorted position,
everything before it compares `≤` it, everything at or after position `k`
compares `≥` it. -/
def selectContract (i : Nat) (d : List (Nat × ℝ)) : Prop :=
  ∃ p, d.get? i = some p ∧ (∀ x ∈ d.take i, x.2 ≤ p.2) ∧
    (∀ y ∈ d.drop (i + 1), p.2 ≤ y.2)

/-- Embedding of `mass_batch` (src/lib.rs lines 179-207) as an
input/output relation: `r` is a possible result iff the two
`debug_assert!` guards pass, every chunk reports, the `assert!` that
`top_matches` does not exceed the number of chunks passes, and `r` is the
`top_matches`-prefix of some interleaving permutation `d` of the chunk
results satisfying the selection contract at position `top_matches - 1`. -/
def MassBatch (ts query : List ℝ) (batch_size top_matches : Nat)
    (r : List (Nat × ℝ)) : Prop :=
  0 < batch_size ∧ 0 < top_matches ∧
  ∃ dists d, ChunkResults ts query batch_size = some dists ∧
    top_matches ≤ dists.length ∧ dists.Perm d ∧
    selectContract (top_matches - 1) d ∧ r = d.take top_matches

/-! ### Order lemmas for the selection contract -/

theorem pairwise_take_rel {α : Type _} {R : α → α → Prop} :
    ∀ (l : List α) (i : Nat) (p : α), List.Pairwise R l → l.get? i = some p →
      ∀ x ∈ l.take i, R x p := by
  intro l
  induction l with
  | nil =>
    intro i p _ hp
    simp at hp
  | cons a t ih =>
    intro i p hpw hp x hx
    match i with
    | 0 => simp at hx
    | i + 1 =>
      simp only [List.take_succ_cons, List.mem_cons] at hx
      simp only [List.get?_cons_succ] at hp
      rcases hx with rfl | hx
      · exact (List.pairwise_cons.mp hpw).1 p (List.get?_mem hp)
      · exact ih i p (List.pairwise_cons.mp hpw).2 hp x hx

theorem pairwise_drop_rel {α : Type _} {R : α → α → Prop} :
    ∀ (l : List α) (i : Nat) (p : α), List.Pairwise R l → l.get? i = some p →
      ∀ y ∈ l.drop (i + 1), R p y := by
  intro l
  induction l with
  | nil =>
    intro i p _ hp
    simp at hp
  | cons a t ih =>
    intro i p hpw hp y hy
    match i with
    | 0 =>
      simp only [List.get?_cons_zero, Option.some_inj] at hp
      simp only [List.drop_succ_cons, List.drop_zero] at hy
      rw [← hp]
      exact (List.pairwise_cons.mp hpw).1 y hy
    | i + 1 =>
      simp only [List.get?_cons_succ] at hp
      simp only [List.drop_succ_cons] at hy
      exact ih i p (List.pairwise_cons.mp hpw).2 hp y hy

/-- Any possible `mass_batch` result is the `k`-prefix of a permutation of
the chunk results, has length exactly `k`, and every retained distance is
`≤` every discarded distance (via transitivity through the pivot at
position `k-1`). -/
theorem massBatch_topk (ts query : List ℝ) (b k : Nat)
    (r dists : List (Nat × ℝ)) (hMB : MassBatch ts query b k r)
    (hCR : ChunkResults ts query b = some dists) :
    r.length = k ∧ ∃ disc, (r ++ disc).Perm dists ∧
      ∀ x ∈ r, ∀ y ∈ disc, x.2 ≤ y.2 := by
  obtain ⟨hb, hk, dists', d, hCR', hlen, hperm, ⟨p, hp, htk, hdr⟩, hr⟩ := hMB
  have hdd : dists' = dists := Option.some_inj.mp (hCR'.symm.trans hCR)
  rw [← hdd]
  have hdlen : d.length = dists'.length := hperm.length_eq.symm
  have hk1 : k - 1 + 1 = k := by omega
  constructor
  · rw [hr, List.length_take]
    omega
  · refine ⟨d.drop k, ?_, ?_⟩
    · rw [hr, List.take_append_drop]
      exact hperm.symm
    · intro x hx y hy
      have hxp : x.2 ≤ p.2 := by
        rw [hr, ← hk1, List.take_succ] at hx
        rcases List.mem_append.mp hx with hx | hx
        · exact htk x hx
        · have : x = p := by
            rw [← List.get?_eq_getElem?, hp] at hx
            simpa using hx
          rw [this]
      have hpy : p.2 ≤ y.2 := by
        rw [← hk1] at hy
        exact hdr y hy
      exact le_trans hxp hpy

/-! ### A concrete batch instance over the series
`[9,8,7,6,7,6,5,4,3]` with query `[0,1]` and chunk size 4: the chunk
minima are `(0, √8)`, `(3, 0)`, `(6, √8)`, and with `k = 3` the contract
admits the unsorted result `[(0,√8), (3,0), (6,√8)]`. -/

noncomputable section

def ts9 : List ℝ := [9, 8, 7, 6, 7, 6, 5, 4, 3]

def q01 : List ℝ := [0, 1]

def cr9 : List (Nat × ℝ) := [(0, Real.sqrt 8), (3, 0), (6, Real.sqrt 8)]

end

theorem mean_pair (a b : ℝ) : mean [a, b] = (a + b) / 2 := by
  simp [mean]

theorem std_pair (a b : ℝ) : std [a, b] = |a - b| / 2 := by
  simp only [std, mean_pair]
  have h1 : (([a, b].map (fun x => (x - (a + b) / 2) ^ 2)).sum /
      (([a, b].length : Nat) : ℝ)) = ((a - b) / 2) ^ 2 := by
    simp
    ring
  rw [h1, Real.sqrt_sq_eq_abs, abs_div]
  norm_num

theorem dot_pair (a b c d : ℝ) : dot [a, b] [c, d] = a * c + b * d := by
  simp [dot]

theorem std_q01 : std [(0 : ℝ), 1] = 1 / 2 := by
  rw [std_pair, show |(0 : ℝ) - 1| = 1 by rw [abs_sub_comm]; norm_num]

theorem mean_q01 : mean [(0 : ℝ), 1] = 1 / 2 := by
  rw [mean_pair]
  norm_num

theorem mp_c1 : massProfile [(9 : ℝ), 8, 7, 6] [(0 : ℝ), 1] =
    [Real.sqrt 8, Real.sqrt 8, Real.sqrt 8] := by
  have hma : moving_avg [(9 : ℝ), 8, 7, 6] 2 = [17 / 2, 15 / 2, 13 / 2] := by
    simp only [moving_avg]
    norm_num [List.range_succ]
    rw [show window [(9 : ℝ), 8, 7, 6] 0 2 = [9, 8] from rfl,
        show window [(9 : ℝ), 8, 7, 6] 1 2 = [8, 7] from rfl,
        show window [(9 : ℝ), 8, 7, 6] 2 2 = [7, 6] from rfl]
    norm_num [mean_pair]
  have hms : moving_std [(9 : ℝ), 8, 7, 6] 2 = [1 / 2, 1 / 2, 1 / 2] := by
    simp only [moving_std]
    norm_num [List.range_succ]
    rw [show window [(9 : ℝ), 8, 7, 6] 0 2 = [9, 8] from rfl,
        show window [(9 : ℝ), 8, 7, 6] 1 2 = [8, 7] from rfl,
        show window [(9 : ℝ), 8, 7, 6] 2 2 = [7, 6] from rfl]
    norm_num [std_pair]
  have hz : fft_mult [(9 : ℝ), 8, 7, 6] [(0 : ℝ), 1] = [8, 7, 6] := by
    simp only [fft_mult]
    norm_num [List.range_succ]
    rw [show window [(9 : ℝ), 8, 7, 6] 0 2 = [9, 8] from rfl,
        show window [(9 : ℝ), 8, 7, 6] 1 2 = [8, 7] from rfl,
        show window [(9 : ℝ), 8, 7, 6] 2 2 = [7, 6] from rfl]
    norm_num [dot_pair]
  have hlen2 : List.length [(0 : ℝ), 1] = 2 := by norm_num
  have hlen4 : List.length [(9 : ℝ), 8, 7, 6] = 4 := by norm_num
  simp only [massProfile, hlen2, hlen4, mean_q01, std_q01, hma, hms, hz]
  simp only [Mass.dist]
  norm_num [List.range_succ]

theorem mp_c2 : massProfile [(6 : ℝ), 7, 6, 5] [(0 : ℝ), 1] =
    [0, Real.sqrt 8, Real.sqrt 8] := by
  have hma : moving_avg [(6 : ℝ), 7, 6, 5] 2 = [13 / 2, 13 / 2, 11 / 2] := by
    simp only [moving_avg]
    norm_num [List.range_succ]
    rw [show window [(6 : ℝ), 7, 6, 5] 0 2 = [6, 7] from rfl,
        show window [(6 : ℝ), 7, 6, 5] 1 2 = [7, 6] from rfl,
        show window [(6 : ℝ), 7, 6, 5] 2 2 = [6, 5] from rfl]
    norm_num [mean_pair]
  have hms : moving_std [(6 : ℝ), 7, 6, 5] 2 = [1 / 2, 1 / 2, 1 / 2] := by
    simp only [moving_std]
    norm_num [List.range_succ]
    rw [show window [(6 : ℝ), 7, 6, 5] 0 2 = [6, 7] from rfl,
        show window [(6 : ℝ), 7, 6, 5] 1 2 = [7, 6] from rfl,
        show window [(6 : ℝ), 7, 6, 5] 2 2 = [6, 5] from rfl]
    norm_num [std_pair]
  have hz : fft_mult [(6 : ℝ), 7, 6, 5] [(0 : ℝ), 1] = [7, 6, 5] := by
    simp only [fft_mult]
    norm_num [List.range_succ]
    rw [show window [(6 : ℝ), 7, 6, 5] 0 2 = [6, 7] from rfl,
        show window [(6 : ℝ), 7, 6, 5] 1 2 = [7, 6] from rfl,
        show window [(6 : ℝ), 7, 6, 5] 2 2 = [6, 5] from rfl]
    norm_num [dot_pair]
  have hlen2 : List.length [(0 : ℝ), 1] = 2 := by norm_num
  have hlen4 : List.length [(6 : ℝ), 7, 6, 5] = 4 := by norm_num
  simp only [massProfile, hlen2, hlen4, mean_q01, std_q01, hma, hms, hz]
  simp only [Mass.dist]
  norm_num [List.range_succ]

theorem mp_c3 : massProfile [(5 : ℝ), 4, 3] [(0 : ℝ), 1] =
    [Real.sqrt 8, Real.sqrt 8] := by
  have hma : moving_avg [(5 : ℝ), 4, 3] 2 = [9 / 2, 7 / 2] := by
    simp only [moving_avg]
    norm_num [List.range_succ]
    rw [show window [(5 : ℝ), 4, 3] 0 2 = [5, 4] from rfl,
        show window [(5 : ℝ), 4, 3] 1 2 = [4, 3] from rfl]
    norm_num [mean_pair]
  have hms : moving_std [(5 : ℝ), 4, 3] 2 = [1 / 2, 1 / 2] := by
    simp only [moving_std]
    norm_num [List.range_succ]
    rw [show window [(5 : ℝ), 4, 3] 0 2 = [5, 4] from rfl,
        show window [(5 : ℝ), 4, 3] 1 2 = [4, 3] from rfl]
    norm_num [std_pair]
  have hz : fft_mult [(5 : ℝ), 4, 3] [(0 : ℝ), 1] = [4, 3] := by
    simp only [fft_mult]
    norm_num [List.range_succ]
    rw [show window [(5 : ℝ), 4, 3] 0 2 = [5, 4] from rfl,
        show window [(5 : ℝ), 4, 3] 1 2 = [4, 3] from rfl]
    norm_num [dot_pair]
  have hlen2 : List.length [(0 : ℝ), 1] = 2 := by norm_num
  have hlen3 : List.length [(5 : ℝ), 4, 3] = 3 := by norm_num
  simp only [massProfile, hlen2, hlen3, mean_q01, std_q01, hma, hms, hz]
  simp only [Mass.dist]
  norm_num [List.range_succ]

theorem argmin_c1 : argmin [Real.sqrt 8, Real.sqrt 8, Real.sqrt 8] = 0 := by
  simp [argmin, argminFrom]

theorem argmin_c2 : argmin [(0 : ℝ), Real.sqrt 8, Real.sqrt 8] = 0 := by
  have h : ¬ (Real.sqrt 8 < 0) := not_lt.mpr (Real.sqrt_nonneg 8)
  simp [argmin, argminFrom, h]

theorem argmin_c3 : argmin [Real.sqrt 8, Real.sqrt 8] = 0 := by
  simp [argmin, argminFrom]

theorem msd_c1 : min_subsequence_distance 0 [(9 : ℝ), 8, 7, 6] [(0 : ℝ), 1] =
    some (0, Real.sqrt 8) := by
  unfold min_subsequence_distance mass
  rw [if_pos (by norm_num)]
  simp [mp_c1, argmin_c1]

theorem msd_c2 : min_subsequence_distance 3 [(6 : ℝ), 7, 6, 5] [(0 : ℝ), 1] =
    some (3, 0) := by
  unfold min_subsequence_distance mass
  rw [if_pos (by norm_num)]
  simp [mp_c2, argmin_c2]

theorem msd_c3 : min_subsequence_distance 6 [(5 : ℝ), 4, 3] [(0 : ℝ), 1] =
    some (6, Real.sqrt 8) := by
  unfold min_subsequence_distance mass
  rw [if_pos (by norm_num)]
  simp [mp_c3, argmin_c3]

theorem chunkResults_ts9 : ChunkResults ts9 q01 4 = some cr9 := by
  unfold ChunkResults
  rw [show ts9.length = 9 from by norm_num [ts9],
      show q01.length = 2 from by norm_num [q01],
      show task_index 9 2 4 = some [(0, 3), (3, 6), (6, 8)] from by decide]
  simp only [Option.some_bind, optMap,
    show sliceIncl ts9 0 3 = [(9 : ℝ), 8, 7, 6] from rfl,
    show sliceIncl ts9 3 6 = [(6 : ℝ), 7, 6, 5] from rfl,
    show sliceIncl ts9 6 8 = [(5 : ℝ), 4, 3] from rfl,
    show q01 = [(0 : ℝ), 1] from rfl, msd_c1, msd_c2, msd_c3, cr9]

theorem massBatch_ts9 : MassBatch ts9 q01 4 3 cr9 := by
  refine ⟨by norm_num, by norm_num, cr9, cr9, chunkResults_ts9, by simp [cr9],
    List.Perm.refl _, ⟨(6, Real.sqrt 8), by simp [cr9], ?_, ?_⟩, by simp [cr9]⟩
  · intro x hx
    simp only [cr9, List.take_succ_cons, List.take_zero, List.mem_cons,
      List.not_mem_nil, or_false] at hx
    rcases hx with rfl | rfl
    · exact le_rfl
    · exact Real.sqrt_nonneg 8
  · intro y hy
    simp [cr9] at hy

theorem cr9_not_sorted :
    ¬ List.Pairwise (fun a b : Nat × ℝ => a.2 ≤ b.2) cr9 := by
  intro hpw
  have h8 : (0 : ℝ) < Real.sqrt 8 := Real.sqrt_pos.mpr (by norm_num)
  unfold cr9 at hpw
  have := (List.pairwise_cons.mp hpw).1 (3, 0) (by simp)
  simp only at this
  exact absurd this (not_le.mpr h8)

/-- Claim C3: whenever `mass_batch` succeeds, its result has length exactly
`top_matches`, the retained results together with the discarded ones form a
permutation of the per-chunk MatchResults, every retained distance is `≤`
every discarded distance (value-only comparison), and the retained results
carry no sortedness guarantee: a concrete instance admits an unsorted
result. -/
theorem claim_C3 :
    (∀ (ts query : List ℝ) (b k : Nat) (r dists : List (Nat × ℝ)),
      MassBatch ts query b k r → ChunkResults ts query b = some dists →
      r.length = k ∧ ∃ disc, (r ++ disc).Perm dists ∧
        ∀ x ∈ r, ∀ y ∈ disc, x.2 ≤ y.2) ∧
    (∃ r, MassBatch ts9 q01 4 3 r ∧
      ¬ List.Pairwise (fun a b : Nat × ℝ => a.2 ≤ b.2) r) :=
  ⟨massBatch_topk, cr9, massBatch_ts9, cr9_not_sorted⟩

/-- Claim C3 witness: instantiation of the universal part at the concrete
batch instance. -/
theorem claim_C3_witness :
    cr9.length = 3 ∧ ∃ disc, (cr9 ++ disc).Perm cr9 ∧
      ∀ x ∈ cr9, ∀ y ∈ disc, x.2 ≤ y.2 :=
  claim_C3.1 ts9 q01 4 3 cr9 cr9 massBatch_ts9 chunkResults_ts9

/-! ### Claim C6: success/failure of `mass_batch` as a function of
`top_matches` and the number of chunks -/

theorem sliceIncl_length (ts : List ℝ) (l h : Nat) (hl : l ≤ h)
    (hh : h < ts.length) : (sliceIncl ts l h).length = h - l + 1 := by
  unfold sliceIncl
  rw [List.length_take, List.length_drop]
  omega

theorem chunkResults_some (ts query : List ℝ) (b : Nat)
    (tasks : List (Nat × Nat)) (hm : 1 ≤ query.length)
    (hb : query.length < b) (hn : roundBatch b ≤ ts.length)
    (hT : task_index ts.length query.length b = some tasks) :
    ∃ dists, ChunkResults ts query b = some dists ∧
      dists.length = tasks.length := by
  have hrb : b ≤ roundBatch b := roundBatch_ge b
  have hsome : ∀ lh ∈ tasks, ∃ y,
      min_subsequence_distance lh.1 (sliceIncl ts lh.1 lh.2) query = some y := by
    intro lh hlh
    obtain ⟨h1, h2, h3⟩ :=
      task_index_pair_bounds _ _ _ hm hb hn tasks hT lh hlh
    have hslice : (sliceIncl ts lh.1 lh.2).length = lh.2 - lh.1 + 1 :=
      sliceIncl_length ts lh.1 lh.2 h1 (by omega)
    refine ⟨(argmin (massProfile (sliceIncl ts lh.1 lh.2) query) + lh.1,
      (massProfile (sliceIncl ts lh.1 lh.2) query).getD
        (argmin (massProfile (sliceIncl ts lh.1 lh.2) query)) 0), ?_⟩
    unfold min_subsequence_distance mass
    rw [if_pos (by omega)]
    rfl
  obtain ⟨dists, hd⟩ := optMap_some _ tasks hsome
  refine ⟨dists, ?_, optMap_length _ tasks dists hd⟩
  unfold ChunkResults
  rw [hT]
  simpa using hd

theorem exists_selectContract (dists : List (Nat × ℝ)) (k : Nat)
    (hk1 : 1 ≤ k) (hk2 : k ≤ dists.length) :
    ∃ d, dists.Perm d ∧ selectContract (k - 1) d := by
  classical
  have htrans : ∀ a b c : Nat × ℝ, decide (a.2 ≤ b.2) = true →
      decide (b.2 ≤ c.2) = true → decide (a.2 ≤ c.2) = true := by
    intro a b c hab hbc
    exact decide_eq_true (le_trans (of_decide_eq_true hab) (of_decide_eq_true hbc))
  have htotal : ∀ a b : Nat × ℝ,
      (decide (a.2 ≤ b.2) || decide (b.2 ≤ a.2)) = true := by
    intro a b
    rcases le_total a.2 b.2 with h | h
    · simp [decide_eq_true h]
    · simp [decide_eq_true h]
  set d := dists.mergeSort (fun x y => decide (x.2 ≤ y.2)) with hd
  have hperm : dists.Perm d :=
    (List.mergeSort_perm dists (fun x y => decide (x.2 ≤ y.2))).symm
  have hsorted : List.Pairwise (fun x y : Nat × ℝ =>
      decide (x.2 ≤ y.2) = true) d :=
    List.sorted_mergeSort htrans htotal dists
  have hklt : k - 1 < d.length := by
    have := hperm.length_eq
    omega
  refine ⟨d, hperm, d.get ⟨k - 1, hklt⟩, List.get?_eq_get hklt, ?_, ?_⟩
  · intro x hx
    exact of_decide_eq_true
      (pairwise_take_rel d (k - 1) _ hsorted (List.get?_eq_get hklt) x hx)
  · intro y hy
    exact of_decide_eq_true
      (pairwise_drop_rel d (k - 1) _ hsorted (List.get?_eq_get hklt) y hy)

/-- Claim C6: under the partitioner's preconditions, `mass_batch` has a
possible result exactly when `1 ≤ top_matches` and `top_matches` does not
exceed the number of chunks generated by `task_index`; it fails (no result)
when `top_matches = 0` or `top_matches` exceeds the chunk count. -/
theorem claim_C6 (ts query : List ℝ) (b k : Nat) (tasks : List (Nat × Nat))
    (hm : 1 ≤ query.length) (hb : query.length < b)
    (hn : roundBatch b ≤ ts.length)
    (hT : task_index ts.length query.length b = some tasks) :
    (∃ r, MassBatch ts query b k r) ↔ 1 ≤ k ∧ k ≤ tasks.length := by
  obtain ⟨dists, hCR, hdlen⟩ := chunkResults_some ts query b tasks hm hb hn hT
  constructor
  · rintro ⟨r, hb0, hk0, dists', d, hCR', hlen, -, -, -⟩
    have hdd : dists' = dists := Option.some_inj.mp (hCR'.symm.trans hCR)
    rw [hdd] at hlen
    omega
  · rintro ⟨hk1, hk2⟩
    obtain ⟨d, hperm, hsel⟩ :=
      exists_selectContract dists k hk1 (by omega)
    exact ⟨d.take k, by omega, hk1, dists, d, hCR, by omega, hperm, hsel, rfl⟩

/-- Claim C6 witness: instantiation at the concrete batch instance with
three chunks and `top_matches = 3`. -/
theorem claim_C6_witness :
    (1 ≤ q01.length ∧ q01.length < 4 ∧ roundBatch 4 ≤ ts9.length ∧
      task_index ts9.length q01.length 4 = some [(0, 3), (3, 6), (6, 8)]) ∧
    ((∃ r, MassBatch ts9 q01 4 3 r) ↔
      1 ≤ 3 ∧ 3 ≤ [((0 : Nat), (3 : Nat)), (3, 6), (6, 8)].length) := by
  have h1 : q01.length = 2 := by norm_num [q01]
  have h2 : ts9.length = 9 := by norm_num [ts9]
  have h3 : task_index ts9.length q01.length 4 = some [(0, 3), (3, 6), (6, 8)] := by
    rw [h1, h2]
    decide
  exact ⟨⟨by omega, by omega, by rw [h2]; decide, h3⟩,
    claim_C6 ts9 q01 4 3 [(0, 3), (3, 6), (6, 8)] (by omega) (by omega)
      (by rw [h2]; decide) h3⟩

/-! ### Claim C9: a non-comparable distance value aborts the top-k
selection.

The comparator of src/lib.rs line 204 is
`x.1.partial_cmp(&(y.1)).unwrap()`: the partial comparison of two `f64`
distance values followed by an `unwrap` that panics when the comparison
returns no ordering (e.g. a NaN operand).  `f64` distance values are
modelled for comparison purposes as `Option ℚ`, with `none` playing NaN
(unordered against everything); the standard library's partial selection
`select_nth_unstable_by` is modelled from the spec as a quickselect whose
partition pass compares every element against the pivot, the panic of the
unwrapped comparison propagating as `none`. -/

/-- Modelled from the spec: `PartialOrd::partial_cmp` on `f64` — no
ordering when an operand is NaN (`none`). -/
def partialCmpF (a b : Option ℚ) : Option Ordering :=
  match a, b with
  | some x, some y => some (compare x y)
  | _, _ => none

/-- Modelled from the spec: the partition pass of the partial selection —
every element is compared against the pivot; a failed comparison (the
panicking `unwrap`) aborts the pass. -/
def partitionCmp {α : Type _} (cmp : α → α → Option Ordering) (pivot : α) :
    List α → Option (List α × List α)
  | [] => some ([], [])
  | x :: xs =>
    match cmp x pivot, partitionCmp cmp pivot xs with
    | some Ordering.lt, some (a, b) => some (x :: a, b)
    | some _, some (a, b) => some (a, x :: b)
    | _, _ => none

/-- Modelled from the spec: fuel-driven quickselect body of the partial
selection; a list's own length is always enough fuel. -/
def selectGo {α : Type _} (cmp : α → α → Option Ordering) :
    Nat → Nat → List α → Option (List α)
  | _, _, [] => some []
  | 0, _, _ :: _ => none
  | fuel + 1, k, x :: xs =>
    match partitionCmp cmp x xs with
    | none => none
    | some (less, geq) =>
      if k < less.length then
        (selectGo cmp fuel k less).map (fun l => l ++ x :: geq)
      else if k = less.length then some (less ++ x :: geq)
      else (selectGo cmp fuel (k - less.length - 1) geq).map
        (fun g => less ++ x :: g)

/-- Modelled from the spec: `select_nth_unstable_by` (Rust standard
library) with a failing comparator, as invoked on src/lib.rs line 204. -/
def selectNthUnstableBy {α : Type _} (cmp : α → α → Option Ordering)
    (i : Nat) (l : List α) : Option (List α) :=
  selectGo cmp l.length i l

theorem partitionCmp_none {α : Type _} (cmp : α → α → Option Ordering)
    (pivot : α) : ∀ xs : List α, (∃ z ∈ xs, cmp z pivot = none) →
      partitionCmp cmp pivot xs = none := by
  intro xs
  induction xs with
  | nil =>
    rintro ⟨z, hz, -⟩
    simp at hz
  | cons x xs ih =>
    rintro ⟨z, hz, hcmp⟩
    rcases List.mem_cons.mp hz with rfl | hz
    · simp only [partitionCmp, hcmp]
    · have hrec := ih ⟨z, hz, hcmp⟩
      simp only [partitionCmp, hrec]
      rcases hcx : cmp x pivot with - | o
      · rfl
      · rcases o <;> rfl

/-- Claim C9: if at least two chunk results feed the top-k selection and
one of them carries a non-comparable (NaN) distance value, the selection's
first partition pass hits a failing comparison and the call aborts with no
result collection. -/
theorem claim_C9 (d : List (Nat × Option ℚ)) (i : Nat) (hd : 2 ≤ d.length)
    (hnan : ∃ p ∈ d, p.2 = none) :
    selectNthUnstableBy (fun x y => partialCmpF x.2 y.2) i d = none := by
  match d, hd with
  | x :: y :: rest, _ =>
    have hpc : partitionCmp (fun a b : Nat × Option ℚ => partialCmpF a.2 b.2)
        x (y :: rest) = none := by
      obtain ⟨p, hp, hnone⟩ := hnan
      rcases List.mem_cons.mp hp with rfl | hp2
      · refine partitionCmp_none _ _ _ ⟨y, by simp, ?_⟩
        rcases hy : y.2 with - | q <;> simp [partialCmpF, hnone, hy]
      · refine partitionCmp_none _ _ _ ⟨p, hp2, ?_⟩
        rcases hx : x.2 with - | q <;> simp [partialCmpF, hnone, hx]
    unfold selectNthUnstableBy
    simp only [List.length_cons, selectGo, hpc]

/-- Claim C9 witness: two chunk results, one NaN, abort the selection. -/
theorem claim_C9_witness :
    (2 ≤ [((0 : Nat), some (1 : ℚ)), (1, none)].length ∧
      ∃ p ∈ [((0 : Nat), some (1 : ℚ)), (1, none)], p.2 = none) ∧
    selectNthUnstableBy (fun x y => partialCmpF x.2 y.2) 0
      [((0 : Nat), some (1 : ℚ)), (1, none)] = none :=
  ⟨⟨by simp, ⟨(1, none), by simp, rfl⟩⟩,
    claim_C9 [((0 : Nat), some (1 : ℚ)), (1, none)] 0 (by simp)
      ⟨(1, none), by simp, rfl⟩⟩

end Mass
